import Mathlib

/-
  Verification of the identity-resolution and lineage-extraction core of the
  collibra-parser repository (src/xml_parser_final_json.py).

  Embedding conventions:
  * Python dict values appearing in the object-graph fragments are modelled by
    the inductive `PyVal`: an integer leaf `vint`, or an insertion-ordered
    key/value chain `dnil`/`dcons` (isomorphic to an association list; the
    flattened form keeps every operation structurally recursive).  A Python
    dict key in this program is either a string or None, modelled as
    `Option String`.  `setKey` is dict item assignment: it replaces the value
    at an existing key in place, otherwise appends the new pair at the end,
    exactly like CPython's insertion-ordered dicts.
  * XML elements (xml.etree.ElementTree) are modelled by `XElem`: a tag,
    an attribute list, and the ordered list of children.  `XElem.get` is
    `Element.get` (None on a missing attribute), `findall` is
    `Element.findall(tag)` (direct children), and `findallDeep` is
    `Element.findall(".//" + tag)` (all proper descendants, document order).
  * The mutable `IDGenerator` object is modelled by explicit state passing.
  * File access in `parse_xml` is out of scope: the orchestrator receives
    either a parsed root element or the exception raised by `ET.parse`
    (`Except ParseFailure XElem`).
-/

/-- A Python dict key in this program: a string, or None (absent attribute). -/
abbrev DKey := Option String

/-- A Python value stored in the nested object-graph dicts: an integer id or a
nested dict, the dict encoded as an insertion-ordered key/value chain. -/
inductive PyVal where
  | vint (n : Nat)
  | dnil
  | dcons (key : DKey) (val : PyVal) (rest : PyVal)
deriving DecidableEq

namespace PyVal

/-- Python `d.get(key)` on an encoded dict: value at the first matching key,
None when absent.  On a non-dict value it returns None (unreachable in the
program; Python would raise instead). -/
def lookupD : PyVal → DKey → Option PyVal
  | dcons k v rest, key => if k = key then some v else lookupD rest key
  | _, _ => none

/-- Python `d[key] = v`: replace the value at an existing key in place,
otherwise append the pair at the end (insertion order). -/
def setKey : PyVal → DKey → PyVal → PyVal
  | dcons k w rest, key, v =>
      if k = key then dcons key v rest else dcons k w (setKey rest key v)
  | _, key, v => dcons key v dnil

/-- Python `isinstance(v, dict)`. -/
def isDict : PyVal → Bool
  | vint _ => false
  | _ => true

/-- Number of entries of an encoded dict (`len`). -/
def dlen : PyVal → Nat
  | dcons _ _ rest => dlen rest + 1
  | _ => 0

/-- Whether the encoded dict has an entry with the given key (`key in d`). -/
def keyMem : PyVal → DKey → Bool
  | dcons k _ rest, key => k == key || keyMem rest key
  | _, _ => false

/-- Number of entries carrying the given key (0 or 1 on any dict produced by
`setKey`, which never duplicates a key). -/
def countKey : PyVal → DKey → Nat
  | dcons k _ rest, key => (if k = key then 1 else 0) + countKey rest key
  | _, _ => 0

/-- Concatenation of two key/value chains (proof-side helper). -/
def dappend : PyVal → PyVal → PyVal
  | dcons k v rest, d => dcons k v (dappend rest d)
  | _, d => d

/-- Spec-side access helper: the value stored at a key, defaulting to `vint 0`
when absent (used only to state lookup chains in theorems). -/
def atKey (d : PyVal) (k : DKey) : PyVal := (lookupD d k).getD (vint 0)

/-- Well-formed encoded value: every chain tail is again a chain (never an
integer) and the keys of a chain are pairwise distinct, recursively at every
nesting level.  Every value CPython can hold satisfies this: a dict is always
a proper key/value sequence and never contains a duplicated key. -/
def wfb : PyVal → Bool
  | vint _ => true
  | dnil => true
  | dcons k v rest => isDict rest && !(keyMem rest k) && wfb v && wfb rest

end PyVal

open PyVal

/-- `CollibraXMLParser.merge_dicts` (src/xml_parser_final_json.py lines
172-180): for each key/value pair of `append` in order, if the accumulator
holds a dict at that key and the incoming value is a dict too, recurse,
otherwise the incoming value replaces whatever is at that key. -/
def merge_dicts : PyVal → PyVal → PyVal
  | acc, dcons key v rest =>
      merge_dicts
        (match lookupD acc key with
          | some a => if isDict a && isDict v then setKey acc key (merge_dicts a v)
                      else setKey acc key v
          | none => setKey acc key v)
        rest
  | acc, _ => acc

/-- An XML element as exposed by xml.etree.ElementTree: tag, attribute
pairs, ordered children. -/
structure XElem where
  tag : String
  attrs : List (String × String)
  children : List XElem

namespace XElem

/-- `Element.get(name)`: the attribute value, None when absent. -/
def get (e : XElem) (name : String) : Option String :=
  (e.attrs.find? (fun p => p.1 == name)).map Prod.snd

/-- `Element.findall(tag)`: the direct children carrying the tag, in order. -/
def findall (e : XElem) (t : String) : List XElem :=
  e.children.filter (fun c => c.tag == t)

end XElem

/-- All proper descendants of the elements of a list, each element followed by
its own descendants (document order). -/
def descList : List XElem → List XElem
  | [] => []
  | ⟨t, a, cs⟩ :: rest => ⟨t, a, cs⟩ :: (descList cs ++ descList rest)

/-- `Element.findall(".//" + tag)`: every proper descendant with the tag,
in document order. -/
def findallDeep (e : XElem) (t : String) : List XElem :=
  (descList e.children).filter (fun c => c.tag == t)

/-- `Element.find(".//" + tag)`: the first such descendant, None if absent. -/
def findDeep (e : XElem) (t : String) : Option XElem :=
  (descList e.children).find? (fun c => c.tag == t)

/-- The composite key of `IDGenerator.id_map`: (object_type, name, field).
The object type is always a literal tag string; the container and field names
come from `Element.get` and may be None. -/
abbrev IdKey := String × DKey × DKey

/-- `IDGenerator` (lines 42-59): a counter and the insertion-ordered map from
composite keys to assigned ids. -/
structure IDGenerator where
  counter : Nat
  id_map : List (IdKey × Nat)
deriving DecidableEq

/-- Association-list lookup, first match (Python dict read). -/
def alGet {α β : Type} [DecidableEq α] : List (α × β) → α → Option β
  | [], _ => none
  | (k, v) :: rest, key => if k = key then some v else alGet rest key

/-- Association-list store (Python dict assignment: replace in place or
append). -/
def alSet {α β : Type} [DecidableEq α] : List (α × β) → α → β → List (α × β)
  | [], key, v => [(key, v)]
  | (k, w) :: rest, key, v =>
      if k = key then (key, v) :: rest else (k, w) :: alSet rest key v

/-- A fresh `IDGenerator()`. -/
def freshGen : IDGenerator := ⟨0, []⟩

/-- `IDGenerator.get_id` (lines 48-54): return the stored id for the key, or
allocate `counter + 1` for a first-seen key, store it, and return it. -/
def get_id (g : IDGenerator) (k : IdKey) : Nat × IDGenerator :=
  match alGet g.id_map k with
  | some i => (i, g)
  | none => (g.counter + 1, ⟨g.counter + 1, g.id_map ++ [(k, g.counter + 1)]⟩)

/-- `IDGenerator.get_id_if_exists` (lines 56-59): pure read, never
allocates. -/
def get_id_if_exists (g : IDGenerator) (k : IdKey) : Option Nat :=
  alGet g.id_map k

/-- Run a sequence of `get_id` calls from a given state, collecting the
returned ids (used to state the registry invariant). -/
def runList : IDGenerator → List IdKey → List Nat × IDGenerator
  | g, [] => ([], g)
  | g, k :: ks =>
      let p := get_id g k
      let q := runList p.2 ks
      (p.1 :: q.1, q.2)

/-- Spec-side: append a key to the seen-list if it is new (first-encounter
accumulation). -/
def pushK (s : List IdKey) (k : IdKey) : List IdKey :=
  if k ∈ s then s else s ++ [k]

/-- Spec-side: the distinct keys of a sequence in first-encounter order. -/
def dedupFirst (ks : List IdKey) : List IdKey := ks.foldl pushK []

/-- Spec-side: index of the first occurrence of a key. -/
def idxOf : List IdKey → IdKey → Nat
  | [], _ => 0
  | a :: s, k => if a = k then 0 else idxOf s k + 1

/-- Spec-side: number the keys of a list consecutively starting after n. -/
def numbered : List IdKey → Nat → List (IdKey × Nat)
  | [], _ => []
  | k :: s, n => (k, n + 1) :: numbered s (n + 1)

/-- Spec-side: the registry state that has registered exactly the given keys
in order. -/
def genOf (s : List IdKey) : IDGenerator := ⟨s.length, numbered s 0⟩

/-- Spec-side: the ids the calls of a run return, tracked against the
seen-list. -/
def mapRanks : List IdKey → List IdKey → List Nat
  | _, [] => []
  | s, k :: ks => (idxOf (pushK s k) k + 1) :: mapRanks (pushK s k) ks


namespace XML_NAMES

-- Entity-name constants (class XML_NAMES, lines 12-39).
def SOURCE : String := "SOURCE"
def TARGET : String := "TARGET"
def TRANSFORMATION : String := "TRANSFORMATION"
def MAPPING : String := "MAPPING"
def WORKFLOW : String := "WORKFLOW"
def SOURCEFIELD : String := "SOURCEFIELD"
def TARGETFIELD : String := "TARGETFIELD"
def TRANSFORMFIELD : String := "TRANSFORMFIELD"
def CONNECTOR : String := "CONNECTOR"
def INSTANCE : String := "INSTANCE"
def DB_NAME : String := "DBDNAME"
def OWNER_NAME : String := "OWNERNAME"
def NAME : String := "NAME"
def TYPE : String := "TYPE"
def SESSION : String := "SESSION"
def MAPPING_NAME : String := "MAPPINGNAME"
def FROMINSTANCE : String := "FROMINSTANCE"
def FROMFIELD : String := "FROMFIELD"
def TOINSTANCE : String := "TOINSTANCE"
def TOFIELD : String := "TOFIELD"
def REPOSITORY : String := "REPOSITORY"

end XML_NAMES

/-- The shared field loop of `db_tree` (lines 85-88) and
`transformation_graph` (lines 95-98): for each field child in order, read its
NAME attribute (None when absent), obtain an id for
(kind, containerName, fieldName) from the registry, and store an id-record
under the field name in the fields dict. -/
def fieldsLoop (kind : String) (container : DKey) :
    List XElem → PyVal → IDGenerator → PyVal × IDGenerator
  | [], fields, g => (fields, g)
  | f :: rest, fields, g =>
      let field_name := f.get XML_NAMES.NAME
      let p := get_id g (kind, container, field_name)
      fieldsLoop kind container rest
        (setKey fields field_name (dcons (some "id") (vint p.1) dnil)) p.2

/-- The field-tag selection of `db_tree` (line 84): SOURCEFIELD for a SOURCE
element, TARGETFIELD otherwise. -/
def field_tag_of (elem_tag : String) : String :=
  if elem_tag == XML_NAMES.SOURCE then XML_NAMES.SOURCEFIELD
  else XML_NAMES.TARGETFIELD

/-- `CollibraXMLParser.db_tree` (lines 77-89): process one SOURCE or TARGET
element into the 4-level fragment dbName, schemaName, tableName, fields.
The identity key is (element tag, table name, field name). -/
def db_tree (elem : XElem) (g : IDGenerator) : PyVal × IDGenerator :=
  let elem_tag := elem.tag
  let db_name := elem.get XML_NAMES.DB_NAME
  let schema_name := elem.get XML_NAMES.OWNER_NAME
  let table_name := elem.get XML_NAMES.NAME
  let field_tag := field_tag_of elem_tag
  let p := fieldsLoop elem_tag table_name (elem.findall field_tag) dnil g
  (dcons db_name (dcons schema_name (dcons table_name p.1 dnil) dnil) dnil, p.2)

/-- `CollibraXMLParser.transformation_graph` (lines 91-99): process one
TRANSFORMATION element; identity keys are (TRANSFORMFIELD, transName,
fieldName). -/
def transformation_graph (elem : XElem) (g : IDGenerator) : PyVal × IDGenerator :=
  let trans_name := elem.get XML_NAMES.NAME
  let p := fieldsLoop XML_NAMES.TRANSFORMFIELD trans_name
    (elem.findall XML_NAMES.TRANSFORMFIELD) dnil g
  (dcons trans_name p.1 dnil, p.2)

/-- Python `dict.update`: store every pair of the second dict into the first,
in order. -/
def updateD : PyVal → PyVal → PyVal
  | a, dcons k v r => updateD (setKey a k v) r
  | a, _ => a

/-- The TRANSFORMATION loop of `mapping_graph` (lines 110-112). -/
def transLoop : List XElem → PyVal → IDGenerator → PyVal × IDGenerator
  | [], ts, g => (ts, g)
  | t :: rest, ts, g =>
      let p := transformation_graph t g
      transLoop rest (updateD ts p.1) p.2

/-- The per-mapping instance-type dict: instance name (NAME attribute) to the
declared kind string (TYPE attribute, None when absent). -/
abbrev InstMap := List (DKey × Option String)

/-- The INSTANCE loop of `mapping_graph` (lines 114-117). -/
def instLoop : List XElem → InstMap → InstMap
  | [], m => m
  | i :: rest, m =>
      instLoop rest (alSet m (i.get XML_NAMES.NAME) (i.get XML_NAMES.TYPE))

/-- `CollibraXMLParser.mapping_graph` (lines 101-119): an absent element
yields empty results; otherwise fold the transformation children into one
dict, collect the instance-type dict, and wrap under the mapping name. -/
def mapping_graph : Option XElem → IDGenerator → PyVal × InstMap × IDGenerator
  | none, g => (dnil, [], g)
  | some elem, g =>
      let mapping_name := elem.get XML_NAMES.NAME
      let p := transLoop (elem.findall XML_NAMES.TRANSFORMATION) dnil g
      let instance_types := instLoop (elem.findall XML_NAMES.INSTANCE) []
      (dcons mapping_name p.1 dnil, instance_types, p.2)

/-- The SESSION loop of `workflow_graph` (lines 125-134): a session whose
MAPPINGNAME matches no element of the mapping list (first match by NAME) is
logged and skipped; a matched session re-runs `mapping_graph` on the matched
element and files the fragment under the session name. -/
def sessionsLoop (mappings : List XElem) :
    List XElem → PyVal → IDGenerator → PyVal × IDGenerator
  | [], sessions, g => (sessions, g)
  | s :: rest, sessions, g =>
      let session_name := s.get XML_NAMES.NAME
      let mapping_name := s.get XML_NAMES.MAPPING_NAME
      match mappings.find? (fun m => m.get XML_NAMES.NAME == mapping_name) with
      | none => sessionsLoop mappings rest sessions g
      | some m =>
          let p := mapping_graph (some m) g
          sessionsLoop mappings rest (setKey sessions session_name p.1) p.2.2

/-- `CollibraXMLParser.workflow_graph` (lines 121-135). -/
def workflow_graph (elem : XElem) (g : IDGenerator) (mappings : List XElem) :
    PyVal × IDGenerator :=
  let workflow_name := elem.get XML_NAMES.NAME
  let p := sessionsLoop mappings (elem.findall XML_NAMES.SESSION) dnil g
  (dcons workflow_name p.1 dnil, p.2)

/-- The literal kind table of `extract_lineage` (lines 154-158). -/
def object_type_map : List (String × String) :=
  [(XML_NAMES.SOURCE, XML_NAMES.SOURCE),
   (XML_NAMES.TARGET, XML_NAMES.TARGET),
   (XML_NAMES.TRANSFORMATION, XML_NAMES.TRANSFORMFIELD)]

/-- `object_type_map.get(declaredType, TRANSFORMFIELD)` (lines 159-160):
the identity kind for a declared instance type; None or any unlisted string
falls back to TRANSFORMFIELD. -/
def objectTypeOf (t : Option String) : String :=
  match t with
  | some s => (alGet object_type_map s).getD XML_NAMES.TRANSFORMFIELD
  | none => XML_NAMES.TRANSFORMFIELD

/-- The nested instance-type dict `extract_lineage` is typed against:
mapping name to (instance name to declared type). -/
abbrev NestMap := List (DKey × InstMap)

/-- `instance_types.get(mapping_name, {}).get(instance)` (lines 150-151) on
the nested dict: a miss at either level gives None, as does a stored None. -/
def typeOf (it : NestMap) (mname : DKey) (inst : DKey) : Option String :=
  match alGet it mname with
  | some im => (alGet im inst).join
  | none => none

/-- The from-endpoint lookup of a connector (lines 144, 145, 150, 159, 163). -/
def fromIdOf (g : IDGenerator) (mname : DKey) (it : NestMap) (c : XElem) :
    Option Nat :=
  get_id_if_exists g
    (objectTypeOf (typeOf it mname (c.get XML_NAMES.FROMINSTANCE)),
     c.get XML_NAMES.FROMINSTANCE, c.get XML_NAMES.FROMFIELD)

/-- The to-endpoint lookup of a connector (lines 146, 147, 151, 160, 164). -/
def toIdOf (g : IDGenerator) (mname : DKey) (it : NestMap) (c : XElem) :
    Option Nat :=
  get_id_if_exists g
    (objectTypeOf (typeOf it mname (c.get XML_NAMES.TOINSTANCE)),
     c.get XML_NAMES.TOINSTANCE, c.get XML_NAMES.TOFIELD)

/-- One connector of `extract_lineage` (lines 143-169): the edge
[fromId, toId] when `from_id and to_id` is truthy (a present nonzero integer
on both sides), otherwise nothing (the connector is logged and dropped). -/
def connector_edge (g : IDGenerator) (mname : DKey) (it : NestMap) (c : XElem) :
    Option (List Nat) :=
  match fromIdOf g mname it c, toIdOf g mname it c with
  | some a, some b => if a ≠ 0 ∧ b ≠ 0 then some [a, b] else none
  | _, _ => none

/-- The CONNECTOR loop of `extract_lineage`. -/
def lineageLoop (g : IDGenerator) (mname : DKey) (it : NestMap) :
    List XElem → List (List Nat)
  | [] => []
  | c :: rest =>
      match connector_edge g mname it c with
      | some e => e :: lineageLoop g mname it rest
      | none => lineageLoop g mname it rest

/-- `CollibraXMLParser.extract_lineage` (lines 137-170) applied, as its type
annotation declares, to the nested instance-type dict (this is how the unit
tests invoke it). -/
def extract_lineage : Option XElem → IDGenerator → NestMap → List (List Nat)
  | none, _, _ => []
  | some elem, g, it =>
      lineageLoop g (elem.get XML_NAMES.NAME) it
        (elem.findall XML_NAMES.CONNECTOR)

/-- One connector of `extract_lineage` as executed on the FLAT per-mapping
instance-type dict that `parse_xml` (line 236) actually passes.  Python's
`instance_types.get(mapping_name, {})` then looks the mapping name up among
instance names: a hit returns the stored type string (or None), on which the
subsequent `.get(from_instance)` raises AttributeError (propagated to the
`except Exception` in `parse_xml`); a miss returns the empty dict, so both
declared types come out None and both endpoints fall back to TRANSFORMFIELD. -/
def connector_edge_dyn (g : IDGenerator) (mname : DKey) (flat : InstMap)
    (c : XElem) : Except Unit (Option (List Nat)) :=
  match alGet flat mname with
  | some _ => .error ()
  | none =>
      let fromId := get_id_if_exists g
        (objectTypeOf none, c.get XML_NAMES.FROMINSTANCE, c.get XML_NAMES.FROMFIELD)
      let toId := get_id_if_exists g
        (objectTypeOf none, c.get XML_NAMES.TOINSTANCE, c.get XML_NAMES.TOFIELD)
      .ok (match fromId, toId with
           | some a, some b => if a ≠ 0 ∧ b ≠ 0 then some [a, b] else none
           | _, _ => none)

/-- The CONNECTOR loop of `extract_lineage` on the flat dict: the first
connector raises if the flat dict contains the mapping name, and on a raise
no edges of this mapping are produced. -/
def lineageLoopDyn (g : IDGenerator) (mname : DKey) (flat : InstMap) :
    List XElem → Except Unit (List (List Nat))
  | [] => .ok []
  | c :: rest =>
      match connector_edge_dyn g mname flat c with
      | .error e => .error e
      | .ok none => lineageLoopDyn g mname flat rest
      | .ok (some ed) =>
          match lineageLoopDyn g mname flat rest with
          | .error e => .error e
          | .ok l => .ok (ed :: l)

/-- `extract_lineage` as invoked by `parse_xml` (line 236) with the flat
per-mapping instance-type dict. -/
def extract_lineage_dyn : Option XElem → IDGenerator → InstMap →
    Except Unit (List (List Nat))
  | none, _, _ => .ok []
  | some elem, g, flat =>
      lineageLoopDyn g (elem.get XML_NAMES.NAME) flat
        (elem.findall XML_NAMES.CONNECTOR)

/-- The exceptions `ET.parse` can raise at the top of `parse_xml`: a
malformed document (`ET.ParseError`) or a missing file
(`FileNotFoundError`). -/
inductive ParseFailure where
  | parseError
  | fileNotFound
deriving DecidableEq

/-- Phase A of `parse_xml` (lines 217-219): merge the db fragment of every
SOURCE and TARGET element into the accumulator. -/
def dbLoop : List XElem → PyVal → IDGenerator → PyVal × IDGenerator
  | [], db, g => (db, g)
  | e :: rest, db, g =>
      let p := db_tree e g
      dbLoop rest (merge_dicts db p.1) p.2

/-- Phase B of `parse_xml` (lines 222-238): per mapping, build the fragment,
merge it under the repository name, then run the lineage pass with the flat
instance-type dict just built (line 236).  The Bool records whether an
AttributeError aborted the phase; the fragment merged at line 226 is retained
even then, since the raise happens afterwards. -/
def mappingsLoop (repo_name : DKey) :
    List XElem → PyVal → List (List Nat) → IDGenerator →
    PyVal × List (List Nat) × IDGenerator × Bool
  | [], inf, lin, g => (inf, lin, g, false)
  | m :: rest, inf, lin, g =>
      let p := mapping_graph (some m) g
      let inf1 := merge_dicts inf (dcons repo_name p.1 dnil)
      match extract_lineage_dyn (some m) p.2.2 p.2.1 with
      | .error _ => (inf1, lin, p.2.2, true)
      | .ok edges => mappingsLoop repo_name rest inf1 (lin ++ edges) p.2.2

/-- Phase C of `parse_xml` (lines 242-244): merge every workflow fragment
under the repository name. -/
def workflowsLoop (repo_name : DKey) (mappings : List XElem) :
    List XElem → PyVal → IDGenerator → PyVal × IDGenerator
  | [], inf, g => (inf, g)
  | w :: rest, inf, g =>
      let p := workflow_graph w g mappings
      workflowsLoop repo_name mappings rest
        (merge_dicts inf (dcons repo_name p.1 dnil)) p.2

/-- `CollibraXMLParser.parse_xml` (lines 182-261).  The input is the result
of `ET.parse`: on either exception the handlers log and the initial empty
outputs are returned.  Inside the try block: resolve the repository name
(first REPOSITORY descendant, placeholder "N/A" when absent), run Phase A
over all SOURCE then TARGET descendants, Phase B over all MAPPING
descendants, and Phase C over all WORKFLOW descendants.  An AttributeError
raised by the lineage pass (see `connector_edge_dyn`) is caught by the broad
`except Exception`, so the outputs accumulated up to that point are
returned and Phase C is skipped.  The local nested `instance_types`
defaultdict filled at lines 230-231 is never read again and does not affect
the outputs, so it is not modelled. -/
def parse_xml (input : Except ParseFailure XElem) :
    PyVal × PyVal × List (List Nat) :=
  match input with
  | .error _ => (dnil, dnil, [])
  | .ok root =>
      let repo := findDeep root XML_NAMES.REPOSITORY
      let repo_name : DKey := match repo with
        | some r => r.get XML_NAMES.NAME
        | none => some "N/A"
      let all_source_target :=
        findallDeep root XML_NAMES.SOURCE ++ findallDeep root XML_NAMES.TARGET
      let pdb := dbLoop all_source_target dnil freshGen
      let mappings := findallDeep root XML_NAMES.MAPPING
      let pm := mappingsLoop repo_name mappings dnil [] pdb.2
      if pm.2.2.2 then (pdb.1, pm.1, pm.2.1)
      else
        let pw := workflowsLoop repo_name mappings
          (findallDeep root XML_NAMES.WORKFLOW) pm.1 pm.2.2.1
        (pdb.1, pw.1, pm.2.1)

/-- The SOURCE element of the end-to-end example (spec section 8;
test_unit.py test_db_tree): TestTable in TestDB.dbo with fields TestCol and
TestCol2. -/
def exSource : XElem :=
  ⟨"SOURCE", [("DBDNAME", "TestDB"), ("OWNERNAME", "dbo"), ("NAME", "TestTable")],
    [⟨"SOURCEFIELD", [("NAME", "TestCol"), ("DATATYPE", "int")], []⟩,
     ⟨"SOURCEFIELD", [("NAME", "TestCol2"), ("DATATYPE", "varchar")], []⟩]⟩

/-- The MAPPING element of the end-to-end example: transform SQ_Test with
field TestCol, instances TestTable (SOURCE) and SQ_Test (TRANSFORMATION),
and the two connectors TestTable.TestCol to SQ_Test.TestCol and
SQ_Test.TestCol to TargetTable.TargetCol (TargetTable never registered). -/
def exMapping : XElem :=
  ⟨"MAPPING", [("NAME", "m_test")],
    [⟨"TRANSFORMATION", [("NAME", "SQ_Test")],
       [⟨"TRANSFORMFIELD", [("NAME", "TestCol")], []⟩]⟩,
     ⟨"INSTANCE", [("NAME", "TestTable"), ("TYPE", "SOURCE")], []⟩,
     ⟨"INSTANCE", [("NAME", "SQ_Test"), ("TYPE", "TRANSFORMATION")], []⟩,
     ⟨"CONNECTOR", [("FROMINSTANCE", "TestTable"), ("FROMFIELD", "TestCol"),
        ("TOINSTANCE", "SQ_Test"), ("TOFIELD", "TestCol")], []⟩,
     ⟨"CONNECTOR", [("FROMINSTANCE", "SQ_Test"), ("FROMFIELD", "TestCol"),
        ("TOINSTANCE", "TargetTable"), ("TOFIELD", "TargetCol")], []⟩]⟩

/-- The end-to-end example document: a repository named repo holding a folder
with the SOURCE and the MAPPING above. -/
def exDoc : XElem :=
  ⟨"POWERMART", [],
    [⟨"REPOSITORY", [("NAME", "repo")],
       [⟨"FOLDER", [("NAME", "f1")], [exSource, exMapping]⟩]⟩]⟩

/-- A leaf id-record of this system: the one-entry dict mapping the string
key id to an integer (the shape `fieldsLoop` produces at every leaf). -/
def isLeafB : PyVal → Bool
  | dcons (some s) (vint _) dnil => s == "id"
  | _ => false

/-- The nested string-keyed fragments this system merges: a dict with
pairwise-distinct string keys whose every value is either a leaf id-record
or again such a fragment (spec section 3, ObjectGraphFragment). -/
def fragB : PyVal → Bool
  | dnil => true
  | dcons (some s) v rest =>
      isDict rest && !(keyMem rest (some s)) && (isLeafB v || fragB v) && fragB rest
  | _ => false

/-- Every id stored in the registry is positive (true of every reachable
registry state: `get_id` allocates `counter + 1` starting from 0). -/
def PosIds (g : IDGenerator) : Prop := ∀ p ∈ g.id_map, 1 ≤ p.2

/-- Registry keys stay duplicate-free: a Python dict holds one slot per key. -/
def alNodupKeys (l : List (IdKey × Nat)) : Prop := (l.map Prod.fst).Nodup

/-- The registry state after the example document's Phase A and the mapping
build: ids 1 and 2 for the two source fields, id 3 for the transform field. -/
def exGen : IDGenerator :=
  (runList freshGen
    [("SOURCE", some "TestTable", some "TestCol"),
     ("SOURCE", some "TestTable", some "TestCol2"),
     ("TRANSFORMFIELD", some "SQ_Test", some "TestCol")]).2

/-- The flat instance-type dict `mapping_graph` builds for the example
mapping. -/
def exInstMap : InstMap :=
  [(some "TestTable", some "SOURCE"), (some "SQ_Test", some "TRANSFORMATION")]

theorem lookupD_setKey_self (l : PyVal) (k : DKey) (v : PyVal) :
    lookupD (setKey l k v) k = some v := by
  induction l with
  | vint n => simp [setKey, lookupD]
  | dnil => simp [setKey, lookupD]
  | dcons k' w rest ihv ihr =>
      by_cases h : k' = k
      · simp [setKey, h, lookupD]
      · simp [setKey, h, lookupD, ihr]

theorem lookupD_setKey_ne (l : PyVal) (k' : DKey) (v : PyVal) (k : DKey)
    (h : k' ≠ k) : lookupD (setKey l k' v) k = lookupD l k := by
  induction l with
  | vint n => simp [setKey, lookupD, h]
  | dnil => simp [setKey, lookupD, h]
  | dcons k'' w rest ihv ihr =>
      by_cases h2 : k'' = k'
      · simp [setKey, h2, lookupD, h, Ne.symm h]
      · by_cases h3 : k'' = k
        · simp [setKey, h2, lookupD, h3, Ne.symm h]
        · simp [setKey, h2, lookupD, h3, ihr]

theorem setKey_lookup_self (l : PyVal) (k : DKey) (v : PyVal)
    (h : lookupD l k = some v) : setKey l k v = l := by
  induction l with
  | vint n => simp [lookupD] at h
  | dnil => simp [lookupD] at h
  | dcons k' w rest ihv ihr =>
      by_cases h2 : k' = k
      · subst h2
        simp [lookupD] at h
        simp [setKey, h]
      · simp [lookupD, h2] at h
        simp [setKey, h2, ihr h]

theorem isDict_setKey (l : PyVal) (k : DKey) (v : PyVal) :
    isDict (setKey l k v) = true := by
  cases l with
  | vint n => simp [setKey, isDict]
  | dnil => simp [setKey, isDict]
  | dcons k' w rest => by_cases h : k' = k <;> simp [setKey, h, isDict]

theorem wfb_dcons_iff (k : DKey) (v rest : PyVal) :
    wfb (dcons k v rest) = true ↔
      (isDict rest = true ∧ keyMem rest k = false ∧ wfb v = true ∧
       wfb rest = true) := by
  cases hdr : isDict rest <;> cases hk : keyMem rest k <;>
    cases hv : wfb v <;> cases hr : wfb rest <;> simp [wfb, hdr, hk, hv, hr]

theorem isDict_merge (v : PyVal) : ∀ a : PyVal, isDict a = true →
    isDict (merge_dicts a v) = true := by
  induction v with
  | vint n => intro a ha; simpa [merge_dicts] using ha
  | dnil => intro a ha; simpa [merge_dicts] using ha
  | dcons k v rest ihv ihr =>
      intro a ha
      show isDict (merge_dicts _ rest) = true
      apply ihr
      rcases h : lookupD a k with _ | b <;> simp [h]
      · exact isDict_setKey a k v
      · split <;> exact isDict_setKey _ _ _

theorem keyMem_false_lookupD (l : PyVal) (k : DKey)
    (h : keyMem l k = false) : lookupD l k = none := by
  induction l with
  | vint n => simp [lookupD]
  | dnil => simp [lookupD]
  | dcons k' w rest ihv ihr =>
      simp [keyMem] at h
      simp [lookupD, h.1, ihr h.2]

theorem merge_dicts_dnil (acc : PyVal) : merge_dicts acc dnil = acc := rfl

theorem merge_dicts_vint (acc : PyVal) (n : Nat) :
    merge_dicts acc (vint n) = acc := rfl

theorem merge_dicts_cons_dd (acc : PyVal) (key : DKey) (a v rest : PyVal)
    (hl : lookupD acc key = some a) (ha : isDict a = true)
    (hv : isDict v = true) :
    merge_dicts acc (dcons key v rest) =
      merge_dicts (setKey acc key (merge_dicts a v)) rest := by
  simp [merge_dicts, hl, ha, hv]

theorem merge_dicts_cons_none (acc : PyVal) (key : DKey) (v rest : PyVal)
    (hl : lookupD acc key = none) :
    merge_dicts acc (dcons key v rest) = merge_dicts (setKey acc key v) rest := by
  simp [merge_dicts, hl]

theorem merge_dicts_cons_repl (acc : PyVal) (key : DKey) (a v rest : PyVal)
    (hl : lookupD acc key = some a) (h : (isDict a && isDict v) = false) :
    merge_dicts acc (dcons key v rest) = merge_dicts (setKey acc key v) rest := by
  simp [merge_dicts, hl, h]

theorem lookupD_merge_notmem (app : PyVal) : ∀ (acc : PyVal) (k : DKey),
    keyMem app k = false → lookupD (merge_dicts acc app) k = lookupD acc k := by
  induction app with
  | vint n => intro acc k _; rfl
  | dnil => intro acc k _; rfl
  | dcons key v rest ihv ihr =>
      intro acc k h
      simp [keyMem] at h
      show lookupD (merge_dicts _ rest) k = _
      rw [ihr _ k h.2]
      rcases hl : lookupD acc key with _ | a
      · simp [hl, lookupD_setKey_ne _ _ _ _ h.1]
      · simp [hl]
        split <;> exact lookupD_setKey_ne _ _ _ _ h.1

theorem dappend_dnil (a : PyVal) (hw : wfb a = true) (ha : isDict a = true) :
    dappend a dnil = a := by
  induction a with
  | vint n => simp [isDict] at ha
  | dnil => rfl
  | dcons k v rest ihv ihr =>
      obtain ⟨hdr, hmem, hv, hr⟩ := (wfb_dcons_iff k v rest).mp hw
      simp [dappend, ihr hr hdr]

theorem dappend_assoc (a b c : PyVal) :
    dappend (dappend a b) c = dappend a (dappend b c) := by
  induction a with
  | vint n => simp [dappend]
  | dnil => simp [dappend]
  | dcons k v rest ihv ihr => simp [dappend, ihr]

theorem keyMem_dappend (a b : PyVal) (k : DKey) :
    keyMem (dappend a b) k = (keyMem a k || keyMem b k) := by
  induction a with
  | vint n => simp [dappend, keyMem]
  | dnil => simp [dappend, keyMem]
  | dcons k' v rest ihv ihr => simp [dappend, keyMem, ihr, Bool.or_assoc]

theorem isDict_dappend (a b : PyVal) (ha : isDict a = true)
    (hb : isDict b = true) : isDict (dappend a b) = true := by
  cases a <;> simp_all [dappend, isDict]

theorem setKey_fresh (l : PyVal) (k : DKey) (v : PyVal)
    (h : keyMem l k = false) : setKey l k v = dappend l (dcons k v dnil) := by
  induction l with
  | vint n => simp [setKey, dappend]
  | dnil => simp [setKey, dappend]
  | dcons k' w rest ihv ihr =>
      simp [keyMem] at h
      simp [setKey, h.1, dappend, ihr h.2]

theorem wfb_dappend_single (acc : PyVal) (key : DKey) (v : PyVal)
    (hwacc : wfb acc = true) (hacc : isDict acc = true) (hv : wfb v = true)
    (hfresh : keyMem acc key = false) :
    wfb (dappend acc (dcons key v dnil)) = true := by
  induction acc with
  | vint n => simp [isDict] at hacc
  | dnil =>
      simp [dappend]
      exact (wfb_dcons_iff key v dnil).mpr ⟨rfl, rfl, hv, rfl⟩
  | dcons k w rest ihv ihr =>
      obtain ⟨hdr, hmem, hwv, hr⟩ := (wfb_dcons_iff k w rest).mp hwacc
      have hf : (k == key) = false ∧ keyMem rest key = false := by
        simpa [keyMem] using hfresh
      simp only [dappend]
      apply (wfb_dcons_iff k w _).mpr
      refine ⟨isDict_dappend rest _ hdr rfl, ?_, hwv, ?_⟩
      · rw [keyMem_dappend]
        have hkne : (key == k) = false := by
          rcases eq_or_ne key k with h | h
          · subst h; exact absurd hf.1 (by simp)
          · simpa using h
        simp [hmem, keyMem, hkne]
      · exact ihr hr hdr hf.2

theorem merge_disjoint (d : PyVal) : ∀ acc : PyVal, wfb acc = true →
    isDict acc = true → isDict d = true → wfb d = true →
    (∀ k, keyMem d k = true → keyMem acc k = false) →
    merge_dicts acc d = dappend acc d := by
  induction d with
  | vint n => intro acc _ _ hd _ _; simp [isDict] at hd
  | dnil => intro acc hwacc hacc _ _ _
            rw [merge_dicts_dnil, dappend_dnil acc hwacc hacc]
  | dcons key v rest ihv ihr =>
      intro acc hwacc hacc _ hwf hdisj
      obtain ⟨hdr, hmem, hv, hr⟩ := (wfb_dcons_iff key v rest).mp hwf
      have hkacc : keyMem acc key = false := by
        apply hdisj; simp [keyMem]
      rw [merge_dicts_cons_none acc key v rest (keyMem_false_lookupD acc key hkacc)]
      rw [setKey_fresh acc key v hkacc]
      rw [ihr (dappend acc (dcons key v dnil))
          (wfb_dappend_single acc key v hwacc hacc hv hkacc)
          (isDict_dappend _ _ hacc rfl) hdr hr]
      · rw [dappend_assoc]
        simp [dappend]
      · intro k hk
        rw [keyMem_dappend]
        have h1 : keyMem acc k = false := by
          apply hdisj; simp [keyMem, hk]
        have h2 : (key == k) = false := by
          rcases eq_or_ne key k with h | h
          · subst h; rw [hk] at hmem; exact absurd hmem (by simp)
          · simpa using h
        simp [h1, keyMem, h2]

theorem merge_dnil_left (d : PyVal) (hd : isDict d = true)
    (hwf : wfb d = true) : merge_dicts dnil d = d := by
  have h := merge_disjoint d dnil rfl rfl hd hwf (by intro k _; rfl)
  simpa [dappend] using h

theorem merge_idem (x : PyVal) : wfb x = true →
    ∀ acc : PyVal, merge_dicts (merge_dicts acc x) x = merge_dicts acc x := by
  induction x with
  | vint n => intro _ acc; rfl
  | dnil => intro _ acc; rfl
  | dcons key v rest ihv ihr =>
      intro hwf acc
      obtain ⟨hdr, hmem, hv, hr⟩ := (wfb_dcons_iff key v rest).mp hwf
      rcases hl : lookupD acc key with _ | a
      · -- first pass replaces at a fresh key
        rw [merge_dicts_cons_none acc key v rest hl]
        cases hdv : isDict v with
        | false =>
            rw [merge_dicts_cons_repl (merge_dicts (setKey acc key v) rest) key v v rest
              (by rw [lookupD_merge_notmem rest _ key hmem]; exact lookupD_setKey_self acc key v)
              (by simp [hdv])]
            rw [setKey_lookup_self _ key v
              (by rw [lookupD_merge_notmem rest _ key hmem]; exact lookupD_setKey_self acc key v)]
            exact ihr hr (setKey acc key v)
        | true =>
            rw [merge_dicts_cons_dd (merge_dicts (setKey acc key v) rest) key v v rest
              (by rw [lookupD_merge_notmem rest _ key hmem]; exact lookupD_setKey_self acc key v)
              hdv hdv]
            have hvv : merge_dicts v v = v := by
              have h0 : merge_dicts dnil v = v := merge_dnil_left v hdv hv
              calc merge_dicts v v = merge_dicts (merge_dicts dnil v) v := by rw [h0]
                _ = merge_dicts dnil v := ihv hv dnil
                _ = v := h0
            rw [hvv]
            rw [setKey_lookup_self _ key v
              (by rw [lookupD_merge_notmem rest _ key hmem]; exact lookupD_setKey_self acc key v)]
            exact ihr hr (setKey acc key v)
      · cases hcond : (isDict a && isDict v) with
        | true =>
            obtain ⟨ha, hdv⟩ : isDict a = true ∧ isDict v = true := by
              simpa using hcond
            rw [merge_dicts_cons_dd acc key a v rest hl ha hdv]
            have hlook : lookupD (merge_dicts (setKey acc key (merge_dicts a v)) rest) key
                = some (merge_dicts a v) := by
              rw [lookupD_merge_notmem rest _ key hmem]
              exact lookupD_setKey_self acc key (merge_dicts a v)
            rw [merge_dicts_cons_dd _ key (merge_dicts a v) v rest hlook
              (isDict_merge v a ha) hdv]
            rw [ihv hv a]
            rw [setKey_lookup_self _ key (merge_dicts a v) hlook]
            exact ihr hr (setKey acc key (merge_dicts a v))
        | false =>
            rw [merge_dicts_cons_repl acc key a v rest hl hcond]
            have hlook : lookupD (merge_dicts (setKey acc key v) rest) key = some v := by
              rw [lookupD_merge_notmem rest _ key hmem]
              exact lookupD_setKey_self acc key v
            cases hdv : isDict v with
            | false =>
                rw [merge_dicts_cons_repl _ key v v rest hlook (by simp [hdv])]
                rw [setKey_lookup_self _ key v hlook]
                exact ihr hr (setKey acc key v)
            | true =>
                rw [merge_dicts_cons_dd _ key v v rest hlook hdv hdv]
                have hvv : merge_dicts v v = v := by
                  have h0 : merge_dicts dnil v = v := merge_dnil_left v hdv hv
                  calc merge_dicts v v = merge_dicts (merge_dicts dnil v) v := by rw [h0]
                    _ = merge_dicts dnil v := ihv hv dnil
                    _ = v := h0
                rw [hvv]
                rw [setKey_lookup_self _ key v hlook]
                exact ihr hr (setKey acc key v)

theorem fragB_some_iff (s : String) (v rest : PyVal) :
    fragB (dcons (some s) v rest) = true ↔
      (isDict rest = true ∧ keyMem rest (some s) = false ∧
       (isLeafB v = true ∨ fragB v = true) ∧ fragB rest = true) := by
  cases hdr : isDict rest <;> cases hk : keyMem rest (some s) <;>
    cases hl : isLeafB v <;> cases hf : fragB v <;> cases hr : fragB rest <;>
      simp [fragB, hdr, hk, hl, hf, hr]

theorem isLeafB_wfb (v : PyVal) (h : isLeafB v = true) : wfb v = true := by
  cases v with
  | vint n => simp [isLeafB] at h
  | dnil => simp [isLeafB] at h
  | dcons k w rest =>
      cases k with
      | none => simp [isLeafB] at h
      | some s =>
          cases w with
          | vint n =>
              cases rest with
              | vint m => simp [isLeafB] at h
              | dnil => simp [wfb, isDict, keyMem]
              | dcons a b c => simp [isLeafB] at h
          | dnil => simp [isLeafB] at h
          | dcons a b c => simp [isLeafB] at h

theorem fragB_wfb (x : PyVal) (h : fragB x = true) : wfb x = true := by
  induction x with
  | vint n => simp [fragB] at h
  | dnil => rfl
  | dcons k v rest ihv ihr =>
      cases k with
      | none => simp [fragB] at h
      | some s =>
          obtain ⟨hdr, hmem, hlv, hr⟩ := (fragB_some_iff s v rest).mp h
          apply (wfb_dcons_iff (some s) v rest).mpr
          refine ⟨hdr, hmem, ?_, ihr hr⟩
          rcases hlv with hl | hf
          · exact isLeafB_wfb v hl
          · exact ihv hf

theorem alGet_numbered (s : List IdKey) : ∀ (n : Nat) (k : IdKey),
    alGet (numbered s n) k = if k ∈ s then some (n + idxOf s k + 1) else none := by
  induction s with
  | nil => intro n k; simp [numbered, alGet]
  | cons a s ih =>
      intro n k
      by_cases h : a = k
      · subst h
        simp [numbered, alGet, idxOf]
      · by_cases hm : k ∈ s
        · simp [numbered, alGet, h, ih (n + 1) k, idxOf, Ne.symm h, hm]
          omega
        · simp [numbered, alGet, h, ih (n + 1) k, idxOf, Ne.symm h, hm]

theorem numbered_append (s : List IdKey) : ∀ (k : IdKey) (n : Nat),
    numbered (s ++ [k]) n = numbered s n ++ [(k, n + s.length + 1)] := by
  induction s with
  | nil => intro k n; simp [numbered]
  | cons a s ih =>
      intro k n
      simp [numbered, ih k (n + 1)]
      omega

theorem idxOf_append_left (s : List IdKey) : ∀ (t : List IdKey) (k : IdKey),
    k ∈ s → idxOf (s ++ t) k = idxOf s k := by
  induction s with
  | nil => intro t k h; simp at h
  | cons a s ih =>
      intro t k h
      by_cases ha : a = k
      · simp [idxOf, ha]
      · rcases List.mem_cons.mp h with h2 | h2
        · exact absurd h2.symm ha
        · simp [idxOf, ha, ih t k h2]

theorem idxOf_append_self (s : List IdKey) (k : IdKey) (h : k ∉ s) :
    idxOf (s ++ [k]) k = s.length := by
  induction s with
  | nil => simp [idxOf]
  | cons a s ih =>
      have ha : a ≠ k := by intro hh; exact h (by simp [hh])
      have hs : k ∉ s := by intro hh; exact h (by simp [hh])
      simp [idxOf, ha, ih hs]

theorem get_id_genOf_mem (s : List IdKey) (k : IdKey) (h : k ∈ s) :
    get_id (genOf s) k = (idxOf s k + 1, genOf s) := by
  simp [get_id, genOf, alGet_numbered, h]

theorem get_id_genOf_new (s : List IdKey) (k : IdKey) (h : k ∉ s) :
    get_id (genOf s) k = (s.length + 1, genOf (s ++ [k])) := by
  simp [get_id, genOf, alGet_numbered, h, numbered_append]

theorem pushK_sublist (ks : List IdKey) : ∀ s : List IdKey,
    ∃ t, ks.foldl pushK s = s ++ t := by
  induction ks with
  | nil => intro s; exact ⟨[], by simp⟩
  | cons k ks ih =>
      intro s
      rcases ih (pushK s k) with ⟨t, ht⟩
      by_cases h : k ∈ s
      · exact ⟨t, by simpa [pushK, h] using ht⟩
      · exact ⟨[k] ++ t, by simp [List.foldl_cons, pushK, h] at ht ⊢; simpa using ht⟩

theorem mem_pushK_self (s : List IdKey) (k : IdKey) : k ∈ pushK s k := by
  by_cases h : k ∈ s <;> simp [pushK, h]

theorem mem_pushK_mono (s : List IdKey) (k a : IdKey) (h : a ∈ s) :
    a ∈ pushK s k := by
  by_cases hk : k ∈ s <;> simp [pushK, hk, h]

theorem mem_foldl_pushK (ks : List IdKey) : ∀ (s : List IdKey) (a : IdKey),
    a ∈ ks → a ∈ ks.foldl pushK s := by
  induction ks with
  | nil => intro s a h; simp at h
  | cons k ks ih =>
      intro s a h
      rcases List.mem_cons.mp h with h | h
      · subst h
        rcases pushK_sublist ks (pushK s a) with ⟨t, ht⟩
        simp only [List.foldl_cons, ht]
        exact List.mem_append.mpr (Or.inl (mem_pushK_self s a))
      · simp only [List.foldl_cons]
        exact ih (pushK s k) a h

theorem runList_genOf (ks : List IdKey) : ∀ s : List IdKey,
    runList (genOf s) ks = (mapRanks s ks, genOf (ks.foldl pushK s)) := by
  induction ks with
  | nil => intro s; simp [runList, mapRanks]
  | cons k ks ih =>
      intro s
      by_cases h : k ∈ s
      · simp [runList, get_id_genOf_mem s k h, ih s, mapRanks, pushK, h,
          idxOf_append_left]
      · simp [runList, get_id_genOf_new s k h, ih (s ++ [k]), mapRanks, pushK, h,
          idxOf_append_self s k h]

theorem mapRanks_eq (ks : List IdKey) : ∀ s : List IdKey,
    mapRanks s ks = ks.map (fun k => idxOf (ks.foldl pushK s) k + 1) := by
  induction ks with
  | nil => intro s; simp [mapRanks]
  | cons k ks ih =>
      intro s
      simp only [mapRanks, List.map_cons, List.foldl_cons, ih (pushK s k)]
      rcases pushK_sublist ks (pushK s k) with ⟨t, ht⟩
      rw [ht, idxOf_append_left (pushK s k) t k (mem_pushK_self s k)]

theorem idxOf_inj (s : List IdKey) : ∀ a b : IdKey, a ∈ s → b ∈ s → a ≠ b →
    idxOf s a ≠ idxOf s b := by
  induction s with
  | nil => intro a b ha _ _; simp at ha
  | cons c s ih =>
      intro a b ha hb hab
      by_cases hca : c = a
      · subst hca
        have hcb : c ≠ b := hab
        simp [idxOf, hcb]
      · by_cases hcb : c = b
        · subst hcb
          simp [idxOf, hca]
        · have has : a ∈ s := by
            rcases List.mem_cons.mp ha with h | h
            · exact absurd h.symm hca
            · exact h
          have hbs : b ∈ s := by
            rcases List.mem_cons.mp hb with h | h
            · exact absurd h.symm hcb
            · exact h
          have hne := ih a b has hbs hab
          simp [idxOf, hca, hcb]
          omega

theorem numbered_map_fst (s : List IdKey) : ∀ n : Nat,
    (numbered s n).map Prod.fst = s := by
  induction s with
  | nil => intro n; simp [numbered]
  | cons a s ih => intro n; simp [numbered, ih (n + 1)]

theorem numbered_map_snd (s : List IdKey) : ∀ n : Nat,
    (numbered s n).map Prod.snd = List.range' (n + 1) s.length := by
  induction s with
  | nil => intro n; simp [numbered]
  | cons a s ih =>
      intro n
      simp only [List.length_cons]
      rw [List.range'_succ]
      simp [numbered, ih (n + 1)]

/-- C3: on any sequence of get_id calls on a fresh registry, identical keys
always return the identical integer, distinct keys return distinct integers,
and the registry ends up holding exactly the distinct keys encountered,
numbered 1..M in first-encounter order. -/
theorem get_id_registry_invariant (ks : List IdKey) :
    (runList freshGen ks).1.length = ks.length ∧
    (∀ i j, i < ks.length → j < ks.length → ks[i]? = ks[j]? →
        (runList freshGen ks).1[i]? = (runList freshGen ks).1[j]?) ∧
    (∀ i j, i < ks.length → j < ks.length → ks[i]? ≠ ks[j]? →
        (runList freshGen ks).1[i]? ≠ (runList freshGen ks).1[j]?) ∧
    (runList freshGen ks).2.id_map.map Prod.fst = dedupFirst ks ∧
    (runList freshGen ks).2.id_map.map Prod.snd =
      List.range' 1 (dedupFirst ks).length ∧
    (runList freshGen ks).2.counter = (dedupFirst ks).length := by
  have hrun : runList freshGen ks =
      (mapRanks [] ks, genOf (ks.foldl pushK [])) := runList_genOf ks []
  have hranks : mapRanks [] ks =
      ks.map (fun k => idxOf (ks.foldl pushK []) k + 1) := mapRanks_eq ks []
  have hD : dedupFirst ks = ks.foldl pushK [] := rfl
  refine ⟨?_, ?_, ?_, ?_, ?_, ?_⟩
  · simp [hrun, hranks]
  · intro i j hi hj h
    simp only [hrun, hranks, List.getElem?_map, h]
  · intro i j hi hj hne
    simp only [hrun, hranks, List.getElem?_map]
    rw [List.getElem?_eq_getElem hi, List.getElem?_eq_getElem hj]
    have hab : ks[i] ≠ ks[j] := by
      rw [List.getElem?_eq_getElem hi, List.getElem?_eq_getElem hj] at hne
      simpa using hne
    have hia : ks[i] ∈ ks.foldl pushK [] :=
      mem_foldl_pushK ks [] _ (List.getElem_mem hi)
    have hjb : ks[j] ∈ ks.foldl pushK [] :=
      mem_foldl_pushK ks [] _ (List.getElem_mem hj)
    have hidx := idxOf_inj (ks.foldl pushK []) _ _ hia hjb hab
    simp only [Option.map_some', ne_eq, Option.some.injEq]
    omega
  · simp [hrun, genOf, numbered_map_fst, hD]
  · simp [hrun, genOf, numbered_map_snd, hD]
  · simp [hrun, genOf, hD]

theorem get_id_registry_invariant_witness :
    (runList freshGen
        [("SOURCE", some "T", some "a"), ("SOURCE", some "T", some "b"),
         ("SOURCE", some "T", some "a")]).1[0]? =
      (runList freshGen
        [("SOURCE", some "T", some "a"), ("SOURCE", some "T", some "b"),
         ("SOURCE", some "T", some "a")]).1[2]? ∧
    (runList freshGen
        [("SOURCE", some "T", some "a"), ("SOURCE", some "T", some "b"),
         ("SOURCE", some "T", some "a")]).1[0]? ≠
      (runList freshGen
        [("SOURCE", some "T", some "a"), ("SOURCE", some "T", some "b"),
         ("SOURCE", some "T", some "a")]).1[1]? :=
  ⟨(get_id_registry_invariant
      [("SOURCE", some "T", some "a"), ("SOURCE", some "T", some "b"),
       ("SOURCE", some "T", some "a")]).2.1 0 2
      (by decide) (by decide) (by decide),
   (get_id_registry_invariant
      [("SOURCE", some "T", some "a"), ("SOURCE", some "T", some "b"),
       ("SOURCE", some "T", some "a")]).2.2.1 0 1
      (by decide) (by decide) (by decide)⟩

/-- C4: merge_dicts recurses exactly when both the accumulator's value at the
key and the incoming value are dicts, otherwise the incoming value replaces
the accumulator's entry; in particular merging the addition holding b=1 under
a into the accumulator holding c=2 under a and d=3 yields c=2 and b=1 under a
together with d=3 (checked key by key, as Python dict equality does). -/
theorem merge_dicts_replace_or_recurse :
    (∀ (acc : PyVal) (key : DKey) (a v rest : PyVal),
        lookupD acc key = some a → isDict a = true → isDict v = true →
        merge_dicts acc (dcons key v rest) =
          merge_dicts (setKey acc key (merge_dicts a v)) rest) ∧
    (∀ (acc : PyVal) (key : DKey) (v rest : PyVal),
        (∀ a, lookupD acc key = some a → (isDict a && isDict v) = false) →
        merge_dicts acc (dcons key v rest) =
          merge_dicts (setKey acc key v) rest) ∧
    (atKey (atKey (merge_dicts
        (dcons (some "a") (dcons (some "c") (vint 2) dnil)
          (dcons (some "d") (vint 3) dnil))
        (dcons (some "a") (dcons (some "b") (vint 1) dnil) dnil))
        (some "a")) (some "b") = vint 1 ∧
     atKey (atKey (merge_dicts
        (dcons (some "a") (dcons (some "c") (vint 2) dnil)
          (dcons (some "d") (vint 3) dnil))
        (dcons (some "a") (dcons (some "b") (vint 1) dnil) dnil))
        (some "a")) (some "c") = vint 2 ∧
     dlen (atKey (merge_dicts
        (dcons (some "a") (dcons (some "c") (vint 2) dnil)
          (dcons (some "d") (vint 3) dnil))
        (dcons (some "a") (dcons (some "b") (vint 1) dnil) dnil))
        (some "a")) = 2 ∧
     atKey (merge_dicts
        (dcons (some "a") (dcons (some "c") (vint 2) dnil)
          (dcons (some "d") (vint 3) dnil))
        (dcons (some "a") (dcons (some "b") (vint 1) dnil) dnil))
        (some "d") = vint 3 ∧
     dlen (merge_dicts
        (dcons (some "a") (dcons (some "c") (vint 2) dnil)
          (dcons (some "d") (vint 3) dnil))
        (dcons (some "a") (dcons (some "b") (vint 1) dnil) dnil)) = 2) := by
  refine ⟨?_, ?_, by decide⟩
  · intro acc key a v rest hl ha hv
    exact merge_dicts_cons_dd acc key a v rest hl ha hv
  · intro acc key v rest h
    rcases hl : lookupD acc key with _ | a
    · exact merge_dicts_cons_none acc key v rest hl
    · exact merge_dicts_cons_repl acc key a v rest hl (h a hl)

theorem merge_dicts_replace_or_recurse_witness :
    merge_dicts (dcons (some "x") (dcons (some "y") (vint 5) dnil) dnil)
      (dcons (some "x") (dcons (some "z") (vint 6) dnil) dnil) =
    merge_dicts
      (setKey (dcons (some "x") (dcons (some "y") (vint 5) dnil) dnil)
        (some "x")
        (merge_dicts (dcons (some "y") (vint 5) dnil)
          (dcons (some "z") (vint 6) dnil)))
      dnil :=
  merge_dicts_replace_or_recurse.1
    (dcons (some "x") (dcons (some "y") (vint 5) dnil) dnil) (some "x")
    (dcons (some "y") (vint 5) dnil) (dcons (some "z") (vint 6) dnil) dnil
    (by decide) (by decide) (by decide)

/-- C5: merging the same nested string-keyed fragment with id-record leaves
twice into any accumulator yields the same result as merging it once. -/
theorem merge_dicts_idem_on_fragments (acc x : PyVal) (hx : fragB x = true) :
    merge_dicts (merge_dicts acc x) x = merge_dicts acc x :=
  merge_idem x (fragB_wfb x hx) acc

theorem merge_dicts_idem_on_fragments_witness :
    fragB (dcons (some "T")
      (dcons (some "col") (dcons (some "id") (vint 1) dnil) dnil) dnil) = true ∧
    merge_dicts
      (merge_dicts (dcons (some "T") (vint 7) dnil)
        (dcons (some "T")
          (dcons (some "col") (dcons (some "id") (vint 1) dnil) dnil) dnil))
      (dcons (some "T")
        (dcons (some "col") (dcons (some "id") (vint 1) dnil) dnil) dnil) =
    merge_dicts (dcons (some "T") (vint 7) dnil)
      (dcons (some "T")
        (dcons (some "col") (dcons (some "id") (vint 1) dnil) dnil) dnil) :=
  ⟨by decide,
   merge_dicts_idem_on_fragments (dcons (some "T") (vint 7) dnil)
     (dcons (some "T")
       (dcons (some "col") (dcons (some "id") (vint 1) dnil) dnil) dnil)
     (by decide)⟩

/-- C9: when the input file is absent or fails to parse, parse_xml catches
the exception and returns the three all-empty outputs. -/
theorem parse_xml_error_empty_outputs (e : ParseFailure) :
    parse_xml (.error e) = (dnil, dnil, []) := rfl

/-- C10: the identity key built by db_tree uses only the element tag, the
table NAME attribute and the field NAME attributes, so two runs on elements
that agree on tag, NAME and children while differing in DBDNAME or OWNERNAME
produce identical registry states and identical fields maps (with identical
ids); only the outer dbName and schemaName keys of the fragment differ. -/
theorem db_tree_dbdname_ownername_noninterference (e1 e2 : XElem)
    (g : IDGenerator) (ht : e1.tag = e2.tag)
    (hn : e1.get XML_NAMES.NAME = e2.get XML_NAMES.NAME)
    (hc : e1.children = e2.children) :
    (db_tree e1 g).2 = (db_tree e2 g).2 ∧
    atKey (atKey (atKey (db_tree e1 g).1 (e1.get XML_NAMES.DB_NAME))
        (e1.get XML_NAMES.OWNER_NAME)) (e1.get XML_NAMES.NAME) =
    atKey (atKey (atKey (db_tree e2 g).1 (e2.get XML_NAMES.DB_NAME))
        (e2.get XML_NAMES.OWNER_NAME)) (e2.get XML_NAMES.NAME) := by
  have hfind : ∀ t, e1.findall t = e2.findall t := by
    intro t
    simp [XElem.findall, hc]
  constructor
  · simp [db_tree, hfind, ht, hn]
  · simp [db_tree, atKey, lookupD, hfind, ht, hn]

theorem db_tree_dbdname_ownername_noninterference_witness :
    (db_tree ⟨"SOURCE",
        [("DBDNAME", "DB1"), ("OWNERNAME", "o1"), ("NAME", "T")],
        [⟨"SOURCEFIELD", [("NAME", "c")], []⟩]⟩ freshGen).2 =
    (db_tree ⟨"SOURCE",
        [("DBDNAME", "DB2"), ("OWNERNAME", "o2"), ("NAME", "T")],
        [⟨"SOURCEFIELD", [("NAME", "c")], []⟩]⟩ freshGen).2 :=
  (db_tree_dbdname_ownername_noninterference
    ⟨"SOURCE", [("DBDNAME", "DB1"), ("OWNERNAME", "o1"), ("NAME", "T")],
      [⟨"SOURCEFIELD", [("NAME", "c")], []⟩]⟩
    ⟨"SOURCE", [("DBDNAME", "DB2"), ("OWNERNAME", "o2"), ("NAME", "T")],
      [⟨"SOURCEFIELD", [("NAME", "c")], []⟩]⟩
    freshGen rfl (by decide) rfl).1

theorem alGet_mem {α β : Type} [DecidableEq α] (l : List (α × β)) (k : α)
    (v : β) (h : alGet l k = some v) : (k, v) ∈ l := by
  induction l with
  | nil => simp [alGet] at h
  | cons p rest ih =>
      rcases p with ⟨k2, w⟩
      by_cases hk : k2 = k
      · subst hk
        simp [alGet] at h
        simp [h]
      · simp [alGet, hk] at h
        simp [ih h]

theorem posIds_lookup (g : IDGenerator) (hp : PosIds g) (k : IdKey) (a : Nat)
    (h : get_id_if_exists g k = some a) : 1 ≤ a :=
  hp (k, a) (alGet_mem g.id_map k a h)

/-- C6 (amended): a connector yields an edge exactly when both endpoint
lookups return a present id, the emitted edge is [fromId, toId], dropped
connectors raise nothing and leave the edges of the other connectors
untouched, and a mapping whose only connector's from-endpoint lookup misses
(for instance an undeclared FROMINSTANCE whose TRANSFORMFIELD fallback key
was never registered) yields an empty lineage list. -/
theorem extract_lineage_drop_unresolved :
    (∀ (g : IDGenerator) (mname : DKey) (it : NestMap) (c : XElem),
        PosIds g →
        ((connector_edge g mname it c).isSome ↔
          ((fromIdOf g mname it c).isSome ∧ (toIdOf g mname it c).isSome))) ∧
    (∀ (g : IDGenerator) (mname : DKey) (it : NestMap) (c : XElem) (a b : Nat),
        PosIds g → fromIdOf g mname it c = some a →
        toIdOf g mname it c = some b →
        connector_edge g mname it c = some [a, b]) ∧
    (∀ (g : IDGenerator) (mname : DKey) (it : NestMap) (cs1 cs2 : List XElem),
        lineageLoop g mname it (cs1 ++ cs2) =
          lineageLoop g mname it cs1 ++ lineageLoop g mname it cs2) ∧
    (∀ (e : XElem) (g : IDGenerator) (it : NestMap) (c : XElem),
        e.findall XML_NAMES.CONNECTOR = [c] →
        fromIdOf g (e.get XML_NAMES.NAME) it c = none →
        extract_lineage (some e) g it = []) := by
  refine ⟨?_, ?_, ?_, ?_⟩
  · intro g mname it c hp
    rcases hf : fromIdOf g mname it c with _ | a
    · simp [connector_edge, hf]
    · rcases ht : toIdOf g mname it c with _ | b
      · simp [connector_edge, hf, ht]
      · have ha : 1 ≤ a := posIds_lookup g hp _ a hf
        have hb : 1 ≤ b := posIds_lookup g hp _ b ht
        simp [connector_edge, hf, ht]
        omega
  · intro g mname it c a b hp hf ht
    have ha : 1 ≤ a := posIds_lookup g hp _ a hf
    have hb : 1 ≤ b := posIds_lookup g hp _ b ht
    simp [connector_edge, hf, ht]
    omega
  · intro g mname it cs1 cs2
    induction cs1 with
    | nil => simp [lineageLoop]
    | cons c rest ih =>
        simp only [List.cons_append, lineageLoop]
        cases connector_edge g mname it c <;> simp [ih]
  · intro e g it c hfc hf
    simp [extract_lineage, hfc, lineageLoop, connector_edge, hf]

theorem extract_lineage_drop_unresolved_witness :
    extract_lineage
      (some ⟨"MAPPING", [("NAME", "m_test")],
        [⟨"CONNECTOR", [("FROMINSTANCE", "UnknownTable"), ("FROMFIELD", "TestCol"),
           ("TOINSTANCE", "SQ_Test"), ("TOFIELD", "TestCol")], []⟩]⟩)
      (runList freshGen [("TRANSFORMFIELD", some "SQ_Test", some "TestCol")]).2
      [(some "m_test", [(some "SQ_Test", some "TRANSFORMATION")])] = [] :=
  extract_lineage_drop_unresolved.2.2.2
    ⟨"MAPPING", [("NAME", "m_test")],
      [⟨"CONNECTOR", [("FROMINSTANCE", "UnknownTable"), ("FROMFIELD", "TestCol"),
         ("TOINSTANCE", "SQ_Test"), ("TOFIELD", "TestCol")], []⟩]⟩
    (runList freshGen [("TRANSFORMFIELD", some "SQ_Test", some "TestCol")]).2
    [(some "m_test", [(some "SQ_Test", some "TRANSFORMATION")])]
    ⟨"CONNECTOR", [("FROMINSTANCE", "UnknownTable"), ("FROMFIELD", "TestCol"),
       ("TOINSTANCE", "SQ_Test"), ("TOFIELD", "TestCol")], []⟩
    rfl (by decide)

/-- C6 counterexample: a mapping whose only connector has a FROMINSTANCE X
never declared as an instance in that mapping nevertheless yields a nonempty
lineage list: the undeclared endpoint falls back to the TRANSFORMFIELD kind
and the registry happens to hold an id for (TRANSFORMFIELD, X, f). -/
theorem extract_lineage_undeclared_frominstance_counterexample :
    alGet [(some "SQ", some "TRANSFORMATION")] (some "X") = none ∧
    (XElem.findall ⟨"MAPPING", [("NAME", "m1")],
        [⟨"CONNECTOR", [("FROMINSTANCE", "X"), ("FROMFIELD", "f"),
           ("TOINSTANCE", "SQ"), ("TOFIELD", "g")], []⟩]⟩
      XML_NAMES.CONNECTOR).length = 1 ∧
    extract_lineage
      (some ⟨"MAPPING", [("NAME", "m1")],
        [⟨"CONNECTOR", [("FROMINSTANCE", "X"), ("FROMFIELD", "f"),
           ("TOINSTANCE", "SQ"), ("TOFIELD", "g")], []⟩]⟩)
      (runList freshGen [("TRANSFORMFIELD", some "X", some "f"),
        ("TRANSFORMFIELD", some "SQ", some "g")]).2
      [(some "m1", [(some "SQ", some "TRANSFORMATION")])] = [[1, 2]] :=
  ⟨by decide, by decide, by decide⟩

theorem countKey_setKey_ne (l : PyVal) (k' : DKey) (v : PyVal) (k : DKey)
    (h : k' ≠ k) : countKey (setKey l k' v) k = countKey l k := by
  induction l with
  | vint n => simp [setKey, countKey, h]
  | dnil => simp [setKey, countKey, h]
  | dcons k2 w rest ihv ihr =>
      by_cases h2 : k2 = k'
      · simp [setKey, h2, countKey, h]
      · simp [setKey, h2, countKey, ihr]

theorem countKey_setKey_mem (l : PyVal) (k : DKey) (v : PyVal)
    (h : keyMem l k = true) : countKey (setKey l k v) k = countKey l k := by
  induction l with
  | vint n => simp [keyMem] at h
  | dnil => simp [keyMem] at h
  | dcons k2 w rest ihv ihr =>
      by_cases h2 : k2 = k
      · simp [setKey, h2, countKey]
      · have hr : keyMem rest k = true := by simpa [keyMem, h2] using h
        simp [setKey, h2, countKey, ihr hr]

theorem countKey_setKey_new (l : PyVal) (k : DKey) (v : PyVal)
    (h : keyMem l k = false) : countKey (setKey l k v) k = countKey l k + 1 := by
  induction l with
  | vint n => simp [setKey, countKey]
  | dnil => simp [setKey, countKey]
  | dcons k2 w rest ihv ihr =>
      have h2 : (k2 == k) = false ∧ keyMem rest k = false := by
        simpa [keyMem] using h
      have hne : k2 ≠ k := by simpa using h2.1
      simp [setKey, hne, countKey, ihr h2.2]

theorem keyMem_false_countKey_zero (l : PyVal) (k : DKey)
    (h : keyMem l k = false) : countKey l k = 0 := by
  induction l with
  | vint n => simp [countKey]
  | dnil => simp [countKey]
  | dcons k2 w rest ihv ihr =>
      have h2 : (k2 == k) = false ∧ keyMem rest k = false := by
        simpa [keyMem] using h
      have hne : k2 ≠ k := by simpa using h2.1
      simp [countKey, hne, ihr h2.2]

theorem keyMem_true_countKey_pos (l : PyVal) (k : DKey)
    (h : keyMem l k = true) : 1 ≤ countKey l k := by
  induction l with
  | vint n => simp [keyMem] at h
  | dnil => simp [keyMem] at h
  | dcons k2 w rest ihv ihr =>
      by_cases h2 : k2 = k
      · simp [countKey, h2]
      · have hr : keyMem rest k = true := by simpa [keyMem, h2] using h
        have := ihr hr
        simp [countKey, h2]
        omega

theorem alGet_append_left {α β : Type} [DecidableEq α] (l t : List (α × β))
    (k : α) (v : β) (h : alGet l k = some v) : alGet (l ++ t) k = some v := by
  induction l with
  | nil => simp [alGet] at h
  | cons p rest ih =>
      rcases p with ⟨k2, w⟩
      by_cases h2 : k2 = k
      · subst h2
        simp [alGet] at h ⊢
        exact h
      · simp [alGet, h2] at h ⊢
        exact ih h

theorem alGet_append_of_none {α β : Type} [DecidableEq α] (l t : List (α × β))
    (k : α) (h : alGet l k = none) : alGet (l ++ t) k = alGet t k := by
  induction l with
  | nil => simp
  | cons p rest ih =>
      rcases p with ⟨k2, w⟩
      by_cases h2 : k2 = k
      · simp [alGet, h2] at h
      · simp [alGet, h2] at h ⊢
        exact ih h

theorem get_id_preserves (g : IDGenerator) (k2 k : IdKey) (v : Nat)
    (h : alGet g.id_map k = some v) :
    alGet ((get_id g k2).2).id_map k = some v := by
  rcases h2 : alGet g.id_map k2 with _ | i
  · simp [get_id, h2]
    exact alGet_append_left g.id_map [(k2, g.counter + 1)] k v h
  · simp [get_id, h2, h]

theorem get_id_self (g : IDGenerator) (k : IdKey) :
    alGet ((get_id g k).2).id_map k = some (get_id g k).1 := by
  rcases h : alGet g.id_map k with _ | i
  · simp [get_id, h]
    rw [alGet_append_of_none g.id_map [(k, g.counter + 1)] k h]
    simp [alGet]
  · simp [get_id, h]

theorem fieldsLoop_preserves (kind : String) (cont : DKey) (fs : List XElem) :
    ∀ (fields : PyVal) (g : IDGenerator) (k : IdKey) (v : Nat),
    alGet g.id_map k = some v →
    alGet ((fieldsLoop kind cont fs fields g).2).id_map k = some v := by
  induction fs with
  | nil => intro fields g k v h; simpa [fieldsLoop] using h
  | cons f rest ih =>
      intro fields g k v h
      simp only [fieldsLoop]
      exact ih _ _ k v (get_id_preserves g _ k v h)

theorem fieldsLoop_countKey_none (kind : String) (cont : DKey)
    (fs : List XElem) : ∀ (fields : PyVal) (g : IDGenerator),
    countKey fields none ≤ 1 →
    countKey (fieldsLoop kind cont fs fields g).1 none =
      (if ∃ f ∈ fs, f.get XML_NAMES.NAME = none then 1
       else countKey fields none) := by
  induction fs with
  | nil => intro fields g _; simp [fieldsLoop]
  | cons f rest ih =>
      intro fields g hle
      rcases hf : f.get XML_NAMES.NAME with _ | s
      · -- the field lacks a name: the None slot now holds exactly one entry
        have hone : countKey
            (setKey fields none (dcons (some "id")
              (vint (get_id g (kind, cont, none)).1) dnil)) none = 1 := by
          cases hm : keyMem fields none with
          | true =>
              rw [countKey_setKey_mem fields none _ hm]
              have := keyMem_true_countKey_pos fields none hm
              omega
          | false =>
              rw [countKey_setKey_new fields none _ hm,
                keyMem_false_countKey_zero fields none hm]
        have hih := ih (setKey fields none (dcons (some "id")
            (vint (get_id g (kind, cont, none)).1) dnil))
          (get_id g (kind, cont, none)).2 (by simp [hone])
        have hcons : ∃ x ∈ f :: rest, x.get XML_NAMES.NAME = none :=
          ⟨f, by simp, hf⟩
        simp only [fieldsLoop, hf]
        rw [hih, hone, if_pos hcons]
        exact ite_self 1
      · -- the field is named: the None slot is untouched by this step
        have hle2 : countKey (setKey fields (some s) (dcons (some "id")
            (vint (get_id g (kind, cont, some s)).1) dnil)) none ≤ 1 := by
          rwa [countKey_setKey_ne fields (some s) _ none (by simp)]
        have hih := ih (setKey fields (some s) (dcons (some "id")
            (vint (get_id g (kind, cont, some s)).1) dnil))
          (get_id g (kind, cont, some s)).2 hle2
        simp only [fieldsLoop, hf]
        rw [hih, countKey_setKey_ne fields (some s) _ none (by simp)]
        by_cases hrest : ∃ x ∈ rest, x.get XML_NAMES.NAME = none
        · have hcons : ∃ x ∈ f :: rest, x.get XML_NAMES.NAME = none := by
            rcases hrest with ⟨x, hx, hxn⟩
            exact ⟨x, by simp [hx], hxn⟩
          rw [if_pos hrest, if_pos hcons]
        · have hcons : ¬∃ x ∈ f :: rest, x.get XML_NAMES.NAME = none := by
            intro hcon
            rcases hcon with ⟨x, hx, hxn⟩
            rcases List.mem_cons.mp hx with h2 | h2
            · subst h2
              rw [hf] at hxn
              exact Option.noConfusion hxn
            · exact hrest ⟨x, h2, hxn⟩
          rw [if_neg hrest, if_neg hcons]

theorem fieldsLoop_no_none (kind : String) (cont : DKey) (fs : List XElem) :
    ∀ (fields : PyVal) (g : IDGenerator),
    (∀ f ∈ fs, f.get XML_NAMES.NAME ≠ none) →
    lookupD (fieldsLoop kind cont fs fields g).1 none = lookupD fields none := by
  induction fs with
  | nil => intro fields g _; simp [fieldsLoop]
  | cons f rest ih =>
      intro fields g h
      rcases hf : f.get XML_NAMES.NAME with _ | s
      · exact absurd hf (h f (by simp))
      · simp only [fieldsLoop, hf]
        rw [ih _ _ (fun x hx => h x (by simp [hx]))]
        exact lookupD_setKey_ne fields (some s) _ none (by simp)

theorem fieldsLoop_none_value (kind : String) (cont : DKey)
    (fs : List XElem) : ∀ (fields : PyVal) (g : IDGenerator),
    (∃ f ∈ fs, f.get XML_NAMES.NAME = none) →
    ∃ n, lookupD (fieldsLoop kind cont fs fields g).1 none =
           some (dcons (some "id") (vint n) dnil) ∧
         alGet ((fieldsLoop kind cont fs fields g).2).id_map
           (kind, cont, none) = some n := by
  induction fs with
  | nil => intro fields g h; simp at h
  | cons f rest ih =>
      intro fields g h
      rcases hf : f.get XML_NAMES.NAME with _ | s
      · by_cases hrest : ∃ x ∈ rest, x.get XML_NAMES.NAME = none
        · simp only [fieldsLoop, hf]
          exact ih _ _ hrest
        · have hall : ∀ x ∈ rest, x.get XML_NAMES.NAME ≠ none := by
            intro x hx hxn
            exact hrest ⟨x, hx, hxn⟩
          refine ⟨(get_id g (kind, cont, none)).1, ?_, ?_⟩
          · simp only [fieldsLoop, hf]
            rw [fieldsLoop_no_none kind cont rest _ _ hall]
            exact lookupD_setKey_self fields none _
          · simp only [fieldsLoop, hf]
            exact fieldsLoop_preserves kind cont rest _ _ _ _
              (get_id_self g (kind, cont, none))
      · have hrest : ∃ x ∈ rest, x.get XML_NAMES.NAME = none := by
          rcases h with ⟨x, hx, hxn⟩
          rcases List.mem_cons.mp hx with h2 | h2
          · subst h2; rw [hf] at hxn; exact absurd hxn (by simp)
          · exact ⟨x, h2, hxn⟩
        simp only [fieldsLoop, hf]
        exact ih _ _ hrest

theorem alGet_none_not_mem {α β : Type} [DecidableEq α]
    (l : List (α × β)) (k : α) (h : alGet l k = none) :
    k ∉ l.map Prod.fst := by
  induction l with
  | nil => simp
  | cons p rest ih =>
      rcases p with ⟨k2, w⟩
      by_cases h2 : k2 = k
      · simp [alGet, h2] at h
      · simp [alGet, h2] at h
        simp [ih h, Ne.symm h2]

theorem get_id_nodup (g : IDGenerator) (k : IdKey)
    (h : alNodupKeys g.id_map) : alNodupKeys ((get_id g k).2).id_map := by
  rcases h2 : alGet g.id_map k with _ | i
  · have hnm := alGet_none_not_mem g.id_map k h2
    unfold alNodupKeys at h ⊢
    simp only [get_id, h2, List.map_append]
    refine List.Nodup.append h (by simp) ?_
    intro a ha hb
    simp at hb
    subst hb
    exact hnm ha
  · simpa [get_id, h2] using h

theorem fieldsLoop_nodup (kind : String) (cont : DKey) (fs : List XElem) :
    ∀ (fields : PyVal) (g : IDGenerator), alNodupKeys g.id_map →
    alNodupKeys ((fieldsLoop kind cont fs fields g).2).id_map := by
  induction fs with
  | nil => intro fields g h; simpa [fieldsLoop] using h
  | cons f rest ih =>
      intro fields g h
      simp only [fieldsLoop]
      exact ih _ _ (get_id_nodup g _ h)

/-- C7: all field children of a container that lack a NAME attribute map to
the single composite key (kind, tableName, None): the fields map of the
returned fragment holds exactly one entry under the None key, its id is the
registry's id for that single key, and the registry keeps exactly one slot
for it (its keys stay duplicate-free). -/
theorem db_tree_absent_field_name_collision (elem : XElem) (g : IDGenerator)
    (hun : ∃ f ∈ elem.findall (field_tag_of elem.tag),
        f.get XML_NAMES.NAME = none)
    (hnd : alNodupKeys g.id_map) :
    countKey (atKey (atKey (atKey (db_tree elem g).1
        (elem.get XML_NAMES.DB_NAME)) (elem.get XML_NAMES.OWNER_NAME))
        (elem.get XML_NAMES.NAME)) none = 1 ∧
    (∃ n, lookupD (atKey (atKey (atKey (db_tree elem g).1
          (elem.get XML_NAMES.DB_NAME)) (elem.get XML_NAMES.OWNER_NAME))
          (elem.get XML_NAMES.NAME)) none =
        some (dcons (some "id") (vint n) dnil) ∧
      alGet ((db_tree elem g).2).id_map
        (elem.tag, elem.get XML_NAMES.NAME, none) = some n) ∧
    alNodupKeys ((db_tree elem g).2).id_map := by
  have hfrag : atKey (atKey (atKey (db_tree elem g).1
      (elem.get XML_NAMES.DB_NAME)) (elem.get XML_NAMES.OWNER_NAME))
      (elem.get XML_NAMES.NAME) =
      (fieldsLoop elem.tag (elem.get XML_NAMES.NAME)
        (elem.findall (field_tag_of elem.tag)) dnil g).1 := by
    simp [db_tree, atKey, lookupD]
  have hsnd : (db_tree elem g).2 =
      (fieldsLoop elem.tag (elem.get XML_NAMES.NAME)
        (elem.findall (field_tag_of elem.tag)) dnil g).2 := rfl
  refine ⟨?_, ?_, ?_⟩
  · rw [hfrag]
    rw [fieldsLoop_countKey_none elem.tag (elem.get XML_NAMES.NAME)
      (elem.findall (field_tag_of elem.tag)) dnil g (by simp [countKey])]
    rw [if_pos hun]
  · rw [hfrag, hsnd]
    exact fieldsLoop_none_value elem.tag (elem.get XML_NAMES.NAME)
      (elem.findall (field_tag_of elem.tag)) dnil g hun
  · rw [hsnd]
    exact fieldsLoop_nodup elem.tag (elem.get XML_NAMES.NAME)
      (elem.findall (field_tag_of elem.tag)) dnil g hnd

theorem db_tree_absent_field_name_collision_witness :
    countKey (atKey (atKey (atKey (db_tree
        ⟨"SOURCE", [("DBDNAME", "TestDB"), ("OWNERNAME", "dbo"),
          ("NAME", "TestTable")],
         [⟨"SOURCEFIELD", [("DATATYPE", "int")], []⟩,
          ⟨"SOURCEFIELD", [("DATATYPE", "varchar")], []⟩]⟩ freshGen).1
        (some "TestDB")) (some "dbo")) (some "TestTable")) none = 1 :=
  (db_tree_absent_field_name_collision
    ⟨"SOURCE", [("DBDNAME", "TestDB"), ("OWNERNAME", "dbo"),
      ("NAME", "TestTable")],
     [⟨"SOURCEFIELD", [("DATATYPE", "int")], []⟩,
      ⟨"SOURCEFIELD", [("DATATYPE", "varchar")], []⟩]⟩ freshGen
    (by decide) (by simp [alNodupKeys, freshGen])).1

/-- C8: a session whose MAPPINGNAME matches no element of the mapping list is
skipped: the returned sessions dict and the registry come out exactly as if
the session were absent (a warning is only logged); a session whose name
matches the first mapping element files that mapping's fragment under the
session name; and workflow_graph always returns the one-entry dict from the
workflow name to its sessions dict. -/
theorem workflow_graph_session_skip :
    (∀ (mappings ss1 : List XElem) (s : XElem) (ss2 : List XElem)
        (sessions : PyVal) (g : IDGenerator),
        (∀ m ∈ mappings, m.get XML_NAMES.NAME ≠ s.get XML_NAMES.MAPPING_NAME) →
        sessionsLoop mappings (ss1 ++ s :: ss2) sessions g =
          sessionsLoop mappings (ss1 ++ ss2) sessions g) ∧
    (∀ (mappings : List XElem) (s : XElem) (ss : List XElem)
        (sessions : PyVal) (g : IDGenerator) (m : XElem),
        mappings.find?
          (fun m2 => m2.get XML_NAMES.NAME == s.get XML_NAMES.MAPPING_NAME) =
          some m →
        sessionsLoop mappings (s :: ss) sessions g =
          sessionsLoop mappings ss
            (setKey sessions (s.get XML_NAMES.NAME) (mapping_graph (some m) g).1)
            (mapping_graph (some m) g).2.2) ∧
    (∀ (e : XElem) (g : IDGenerator) (mappings : List XElem),
        workflow_graph e g mappings =
          (dcons (e.get XML_NAMES.NAME)
            (sessionsLoop mappings (e.findall XML_NAMES.SESSION) dnil g).1 dnil,
           (sessionsLoop mappings (e.findall XML_NAMES.SESSION) dnil g).2)) := by
  refine ⟨?_, ?_, ?_⟩
  · intro mappings ss1 s ss2 sessions g h
    induction ss1 generalizing sessions g with
    | nil =>
        have hfind : mappings.find?
            (fun m2 => m2.get XML_NAMES.NAME == s.get XML_NAMES.MAPPING_NAME) =
            none := by
          apply List.find?_eq_none.mpr
          intro m hm
          simpa using h m hm
        simp [sessionsLoop, hfind]
    | cons s1 rest ih =>
        simp only [List.cons_append, sessionsLoop]
        cases hm : mappings.find?
            (fun m2 => m2.get XML_NAMES.NAME == s1.get XML_NAMES.MAPPING_NAME) with
        | none => simp [hm, ih]
        | some m => simp [hm, ih]
  · intro mappings s ss sessions g m hfind
    simp [sessionsLoop, hfind]
  · intro e g mappings
    rfl

theorem workflow_graph_session_skip_witness :
    sessionsLoop [] [⟨"SESSION", [("NAME", "s1"), ("MAPPINGNAME", "m_gone")], []⟩]
      dnil freshGen =
    sessionsLoop [] [] dnil freshGen :=
  workflow_graph_session_skip.1 [] []
    ⟨"SESSION", [("NAME", "s1"), ("MAPPINGNAME", "m_gone")], []⟩ [] dnil freshGen
    (by simp)

/-- C1: the pipeline on the end-to-end example document assigns id 1 to
TestDB.dbo.TestTable.TestCol and id 3 to repo.m_test.SQ_Test.TestCol exactly
as specified, but returns the empty lineage list instead of [[1, 3]]:
parse_xml hands extract_lineage the flat per-mapping instance-type dict, the
resolver's lookup of the mapping name in it misses, both endpoints of every
connector fall back to TRANSFORMFIELD-kind lookups, and even the fully
resolvable first connector is dropped. -/
theorem parse_xml_end_to_end_example :
    atKey (atKey (atKey (atKey (parse_xml (.ok exDoc)).1 (some "TestDB"))
        (some "dbo")) (some "TestTable")) (some "TestCol") =
      dcons (some "id") (vint 1) dnil ∧
    atKey (atKey (atKey (atKey (parse_xml (.ok exDoc)).2.1 (some "repo"))
        (some "m_test")) (some "SQ_Test")) (some "TestCol") =
      dcons (some "id") (vint 3) dnil ∧
    (parse_xml (.ok exDoc)).2.2 = [] := by
  have h : parse_xml (.ok exDoc) =
      (dcons (some "TestDB") (dcons (some "dbo") (dcons (some "TestTable")
          (dcons (some "TestCol") (dcons (some "id") (vint 1) dnil)
            (dcons (some "TestCol2") (dcons (some "id") (vint 2) dnil) dnil))
          dnil) dnil) dnil,
       dcons (some "repo") (dcons (some "m_test") (dcons (some "SQ_Test")
          (dcons (some "TestCol") (dcons (some "id") (vint 3) dnil) dnil)
          dnil) dnil) dnil,
       []) := by
    simp [parse_xml, findallDeep, findDeep, descList, exDoc, exSource, exMapping]
    decide
  rw [h]
  refine ⟨by decide, by decide, rfl⟩

/-- C2: the fixed kind table sends SOURCE to SOURCE, TARGET to TARGET,
TRANSFORMATION to TRANSFORMFIELD and everything else (a missing declaration
included) to TRANSFORMFIELD, and the resolver looks a declared-SOURCE
endpoint up under SOURCE-kind identities; but when the orchestrator invokes
the resolver it passes the flat per-mapping dict, whose by-mapping-name
indexing misses, so the very connector that resolves to the edge 1 to 3
under the nested dict is dropped by the pipeline and the document's lineage
output is empty. -/
theorem extract_lineage_kind_mapping :
    objectTypeOf (some "SOURCE") = "SOURCE" ∧
    objectTypeOf (some "TARGET") = "TARGET" ∧
    objectTypeOf (some "TRANSFORMATION") = "TRANSFORMFIELD" ∧
    (∀ t : Option String, t ≠ some "SOURCE" → t ≠ some "TARGET" →
        t ≠ some "TRANSFORMATION" → objectTypeOf t = "TRANSFORMFIELD") ∧
    (∀ (g : IDGenerator) (mname : DKey) (it : NestMap) (c : XElem),
        typeOf it mname (c.get XML_NAMES.FROMINSTANCE) = some "SOURCE" →
        fromIdOf g mname it c = get_id_if_exists g
          ("SOURCE", c.get XML_NAMES.FROMINSTANCE, c.get XML_NAMES.FROMFIELD)) ∧
    extract_lineage (some exMapping) exGen [(some "m_test", exInstMap)] =
      [[1, 3]] ∧
    extract_lineage_dyn (some exMapping) exGen exInstMap = .ok [] ∧
    (parse_xml (.ok exDoc)).2.2 = [] := by
  refine ⟨rfl, rfl, rfl, ?_, ?_, by decide, rfl, ?_⟩
  · intro t h1 h2 h3
    rcases t with _ | s
    · rfl
    · have hs1 : XML_NAMES.SOURCE ≠ s := by
        intro hh
        exact h1 (by rw [← hh]; rfl)
      have hs2 : XML_NAMES.TARGET ≠ s := by
        intro hh
        exact h2 (by rw [← hh]; rfl)
      have hs3 : XML_NAMES.TRANSFORMATION ≠ s := by
        intro hh
        exact h3 (by rw [← hh]; rfl)
      simp [objectTypeOf, object_type_map, alGet, hs1, hs2, hs3, XML_NAMES.TRANSFORMFIELD]
  · intro g mname it c h
    unfold fromIdOf
    rw [h]
    rfl
  · have h := parse_xml_end_to_end_example
    exact h.2.2

theorem extract_lineage_kind_mapping_witness :
    objectTypeOf (some "Source Qualifier") = "TRANSFORMFIELD" :=
  extract_lineage_kind_mapping.2.2.2.1 (some "Source Qualifier")
    (by decide) (by decide) (by decide)

/-- The embedding reproduces test_unit.py test_db_tree: the example SOURCE
element produces ids 1 and 2 under TestDB.dbo.TestTable. -/
theorem db_tree_matches_unit_expectation :
    (db_tree exSource freshGen).1 =
    dcons (some "TestDB") (dcons (some "dbo") (dcons (some "TestTable")
      (dcons (some "TestCol") (dcons (some "id") (vint 1) dnil)
        (dcons (some "TestCol2") (dcons (some "id") (vint 2) dnil) dnil))
      dnil) dnil) dnil := by decide

/-- The embedding reproduces test_unit.py test_extract_lineage: with the
nested instance-type dict and a prepopulated registry the example mapping
yields the edges 1 to 2 and 2 to 3. -/
theorem extract_lineage_matches_unit_expectation :
    extract_lineage (some exMapping)
      (runList freshGen
        [("SOURCE", some "TestTable", some "TestCol"),
         ("TRANSFORMFIELD", some "SQ_Test", some "TestCol"),
         ("TARGET", some "TargetTable", some "TargetCol")]).2
      [(some "m_test",
        [(some "TestTable", some "SOURCE"),
         (some "SQ_Test", some "TRANSFORMATION"),
         (some "TargetTable", some "TARGET")])] = [[1, 2], [2, 3]] := by
  decide
